import Mathlib

/-!
Verification of the library-indexing and navigation engine of movie-wolp
(src/movie-wolp.py), via a shallow embedding.

Filesystem paths are modelled as absolute component lists (`FsPath`); a
filesystem is a finite directory tree (`Entry`).  Python functions from the
source are translated one by one; fallible operations (os.scandir on a
missing directory, the NameError in the TV rescan handler) return values of
an `Except`-style shape.  File names, directory names and search text are
Lean `String`s; Python `str.lower` is modelled by the ASCII `Char.toLower`
map, which agrees with Python on all inputs relevant to the claims.
-/

namespace MovieWolp

/-- An absolute filesystem path as its list of components below the
filesystem root (so `/lib/tv` is `["lib", "tv"]`). -/
abbrev FsPath := List String

/-- A finite filesystem tree: a node is a regular file or a directory with
an ordered list of children.  The child order models the (unspecified)
os.scandir listing order. -/
inductive Entry where
  | file (name : String)
  | dir (name : String) (children : List Entry)

mutual

/-- Decidable equality for filesystem entries (hand-rolled because the
inductive is nested). -/
def Entry.decEq : (a b : Entry) → Decidable (a = b)
  | .file n, .file m =>
    if h : n = m then isTrue (by rw [h]) else isFalse (by intro hc; cases hc; exact h rfl)
  | .file _, .dir _ _ => isFalse (by intro hc; cases hc)
  | .dir _ _, .file _ => isFalse (by intro hc; cases hc)
  | .dir n cs, .dir m ds =>
    if h : n = m then
      match Entry.decEqList cs ds with
      | isTrue h2 => isTrue (by rw [h, h2])
      | isFalse h2 => isFalse (by intro hc; cases hc; exact h2 rfl)
    else isFalse (by intro hc; cases hc; exact h rfl)

/-- Decidable equality for lists of filesystem entries. -/
def Entry.decEqList : (a b : List Entry) → Decidable (a = b)
  | [], [] => isTrue rfl
  | [], _ :: _ => isFalse (by intro hc; cases hc)
  | _ :: _, [] => isFalse (by intro hc; cases hc)
  | a :: as, b :: bs =>
    match Entry.decEq a b with
    | isTrue h1 =>
      match Entry.decEqList as bs with
      | isTrue h2 => isTrue (by rw [h1, h2])
      | isFalse h2 => isFalse (by intro hc; cases hc; exact h2 rfl)
    | isFalse h1 => isFalse (by intro hc; cases hc; exact h1 rfl)

end

instance : DecidableEq Entry := Entry.decEq

instance {ε α : Type} [DecidableEq ε] [DecidableEq α] : DecidableEq (Except ε α) := fun a b =>
  match a, b with
  | .ok x, .ok y =>
    if h : x = y then isTrue (by rw [h]) else isFalse (by intro hc; cases hc; exact h rfl)
  | .error x, .error y =>
    if h : x = y then isTrue (by rw [h]) else isFalse (by intro hc; cases hc; exact h rfl)
  | .ok _, .error _ => isFalse (by intro hc; cases hc)
  | .error _, .ok _ => isFalse (by intro hc; cases hc)

/-- The name of a filesystem entry. -/
def Entry.name : Entry → String
  | .file n => n
  | .dir n _ => n

/-- Exceptions raised by the Python code paths the claims mention. -/
inductive PyError where
  | fileNotFound
  | notADirectory
  | nameError
  | attributeError
deriving DecidableEq

mutual

/-- Resolve a path (a component list) below an entry, returning the entry
it denotes, if any.  Descending into a file, or into a missing name,
yields `none`. -/
def Entry.find : Entry → FsPath → Option Entry
  | e, [] => some e
  | .file _, _ :: _ => none
  | .dir _ cs, n :: rest => Entry.findIn cs n rest

/-- Resolve the first child with the given name and continue with the rest
of the path. -/
def Entry.findIn : List Entry → String → FsPath → Option Entry
  | [], _, _ => none
  | c :: cs, n, rest => if c.name = n then Entry.find c rest else Entry.findIn cs n rest

end

/-- os.path.isdir / Path.is_dir on the model filesystem. -/
def isDirAt (fs : Entry) (p : FsPath) : Bool :=
  match fs.find p with
  | some (.dir _ _) => true
  | _ => false

/-- Path.is_file on the model filesystem. -/
def isFileAt (fs : Entry) (p : FsPath) : Bool :=
  match fs.find p with
  | some (.file _) => true
  | _ => false

/-- Path.exists on the model filesystem. -/
def existsAt (fs : Entry) (p : FsPath) : Bool :=
  (fs.find p).isSome

/-- The children of the directory a path denotes, if the path denotes a
directory. -/
def childrenAt (fs : Entry) (p : FsPath) : Option (List Entry) :=
  match fs.find p with
  | some (.dir _ cs) => some cs
  | _ => none

mutual

/-- Well-formedness of a filesystem tree: the children of every directory
have pairwise distinct names, as on a real filesystem. -/
def Entry.wf : Entry → Bool
  | .file _ => true
  | .dir _ cs => decide ((cs.map Entry.name).Nodup) && Entry.wfAll cs

/-- Well-formedness of a list of sibling subtrees. -/
def Entry.wfAll : List Entry → Bool
  | [] => true
  | c :: cs => Entry.wf c && Entry.wfAll cs

end

/-- The full path of a directory child when it is a regular file: this is
both how os.walk reports the files of a directory and how the TV scan
collects immediate file children (item.path when item.is_file(),
src/movie-wolp.py lines 144-146, 153-155 and 174-176). -/
def fileChild (base : FsPath) (e : Entry) : Option FsPath :=
  match e with
  | .file n => some (base ++ [n])
  | .dir _ _ => none

mutual

/-- os.walk from a directory entry sitting at path `p`, keeping only the
regular files, each joined to the directory it was found in: the file
children of `p` come first, then the recursive walks of the subdirectories
in listing order, exactly as the movie scan consumes os.walk
(src/movie-wolp.py lines 170-176). -/
def Entry.walk : Entry → FsPath → List FsPath
  | .file _, _ => []
  | .dir _ cs, p => cs.filterMap (fileChild p) ++ Entry.walkAll cs p

/-- The concatenated walks of a list of sibling entries below `p`; walking
a file contributes nothing, matching os.walk descending only into
directories. -/
def Entry.walkAll : List Entry → FsPath → List FsPath
  | [], _ => []
  | c :: cs, p => Entry.walk c (p ++ [c.name]) ++ Entry.walkAll cs p

end

/-- The contribution of one configured root to the movie scan: os.walk of
the root, which silently yields nothing when the root does not exist or is
not a directory (os.walk swallows the scandir error by default). -/
def rootWalk (fs : Entry) (r : FsPath) : List FsPath :=
  match fs.find r with
  | some e => e.walk r
  | none => []

/-- MovieWolp.scan_directories (src/movie-wolp.py lines 164-179): for each
configured root, a full recursive descent recording every regular file at
any depth, in traversal order. -/
def scan_directories (fs : Entry) (directory_list : List FsPath) : List FsPath :=
  directory_list.flatMap (rootWalk fs)

/-- ASCII str.lower, as applied to file and directory names and search
text. -/
def pyLower (s : String) : String :=
  String.mk (s.data.map Char.toLower)

/-- The item.name.lower().startswith("season") test of the TV scan
(src/movie-wolp.py line 150). -/
def startsWithSeason (n : String) : Bool :=
  "season".data.isPrefixOf (pyLower n).data

/-- The episodes recorded from one season directory: its immediate file
children (src/movie-wolp.py lines 153-155). -/
def scanSeasonDir (seasonPath : FsPath) (cs : List Entry) : List FsPath :=
  cs.filterMap (fileChild seasonPath)

/-- The episodes contributed by one child of a show directory through the
season loop: the immediate files of the child when it is a directory whose
lowercased name starts with "season", nothing otherwise
(src/movie-wolp.py lines 149-155). -/
def seasonContribution (showPath : FsPath) (e : Entry) : List FsPath :=
  match e with
  | .dir n scs => if startsWithSeason n then scanSeasonDir (showPath ++ [n]) scs else []
  | .file _ => []

/-- The episodes recorded from one show directory: its immediate file
children, then the immediate file children of its season-prefixed
subdirectories (src/movie-wolp.py lines 143-155). -/
def scanShowDir (showPath : FsPath) (cs : List Entry) : List FsPath :=
  cs.filterMap (fileChild showPath) ++ cs.flatMap (seasonContribution showPath)

/-- The episodes contributed by one child of a TV root: loose files are
skipped, directories are scanned as shows (src/movie-wolp.py lines
137-155). -/
def showContribution (rootPath : FsPath) (e : Entry) : List FsPath :=
  match e with
  | .dir n scs => scanShowDir (rootPath ++ [n]) scs
  | .file _ => []

/-- The episodes recorded from one TV root directory given its children. -/
def scanTvRoot (rootPath : FsPath) (cs : List Entry) : List FsPath :=
  cs.flatMap (showContribution rootPath)

/-- The scanning loop of MovieWolp.scan_tv_directories (src/movie-wolp.py
lines 132-155).  os.scandir(tv_root) raises FileNotFoundError when the
root does not exist and NotADirectoryError when it is a file; the loop has
no handler, so the error aborts the whole scan. -/
def scan_tv_directories (fs : Entry) : List FsPath → Except PyError (List FsPath)
  | [] => .ok []
  | r :: rs =>
    match fs.find r with
    | some (.dir _ cs) =>
      match scan_tv_directories fs rs with
      | .ok rest => .ok (scanTvRoot r cs ++ rest)
      | .error e => .error e
    | some (.file _) => .error .notADirectory
    | none => .error .fileNotFound


/-- The filesystem of the spec scenario in section 8: a TV root /lib/tv
holding one show with a loose episode, a season folder and a non-season
Bonus folder. -/
def fsScenario : Entry :=
  .dir "" [.dir "lib" [.dir "tv" [.dir "ShowA"
    [.file "ep1.mkv",
     .dir "Season 2" [.file "ep2.mkv"],
     .dir "Bonus" [.file "ep3.mkv"]]]]]

theorem fileChild_eq_some {base : FsPath} {e : Entry} {p : FsPath} :
    fileChild base e = some p ↔ ∃ n, e = Entry.file n ∧ p = base ++ [n] := by
  cases e with
  | file n => simp [fileChild, eq_comm]
  | dir n cs => simp [fileChild]

theorem mem_scanSeasonDir {sp : FsPath} {cs : List Entry} {p : FsPath} :
    p ∈ scanSeasonDir sp cs ↔ ∃ n, Entry.file n ∈ cs ∧ p = sp ++ [n] := by
  simp only [scanSeasonDir, List.mem_filterMap, fileChild_eq_some]
  constructor
  · rintro ⟨e, he, n, rfl, rfl⟩
    exact ⟨n, he, rfl⟩
  · rintro ⟨n, hn, rfl⟩
    exact ⟨Entry.file n, hn, n, rfl, rfl⟩

theorem mem_seasonContribution {sp : FsPath} {e : Entry} {p : FsPath} :
    p ∈ seasonContribution sp e ↔
      ∃ d dcs f, e = Entry.dir d dcs ∧ startsWithSeason d = true ∧
        Entry.file f ∈ dcs ∧ p = sp ++ [d, f] := by
  cases e with
  | file n => simp [seasonContribution]
  | dir d dcs =>
    by_cases hd : startsWithSeason d = true
    · simp only [seasonContribution, hd, if_true, mem_scanSeasonDir, Entry.dir.injEq]
      constructor
      · rintro ⟨n, hn, rfl⟩
        exact ⟨d, dcs, n, ⟨rfl, rfl⟩, hd, hn, by simp⟩
      · rintro ⟨d', dcs', f, ⟨rfl, rfl⟩, -, hf, rfl⟩
        exact ⟨f, hf, by simp⟩
    · simp only [seasonContribution]
      rw [if_neg hd]
      simp only [List.not_mem_nil, false_iff]
      rintro ⟨d', dcs', f, heq, hsd, -, -⟩
      cases heq
      exact hd hsd

theorem mem_scanShowDir {sp : FsPath} {cs : List Entry} {p : FsPath} :
    p ∈ scanShowDir sp cs ↔
      (∃ f, Entry.file f ∈ cs ∧ p = sp ++ [f]) ∨
        (∃ d dcs f, Entry.dir d dcs ∈ cs ∧ startsWithSeason d = true ∧
          Entry.file f ∈ dcs ∧ p = sp ++ [d, f]) := by
  simp only [scanShowDir, List.mem_append, List.mem_filterMap, fileChild_eq_some,
    List.mem_flatMap, mem_seasonContribution]
  constructor
  · rintro (⟨e, he, n, rfl, rfl⟩ | ⟨e, he, d, dcs, f, rfl, hsd, hf, rfl⟩)
    · exact Or.inl ⟨n, he, rfl⟩
    · exact Or.inr ⟨d, dcs, f, he, hsd, hf, rfl⟩
  · rintro (⟨f, hf, rfl⟩ | ⟨d, dcs, f, hd, hsd, hf, rfl⟩)
    · exact Or.inl ⟨Entry.file f, hf, f, rfl, rfl⟩
    · exact Or.inr ⟨Entry.dir d dcs, hd, d, dcs, f, rfl, hsd, hf, rfl⟩

theorem mem_showContribution {rp : FsPath} {e : Entry} {p : FsPath} :
    p ∈ showContribution rp e ↔
      ∃ s scs, e = Entry.dir s scs ∧
        ((∃ f, Entry.file f ∈ scs ∧ p = rp ++ [s, f]) ∨
          (∃ d dcs f, Entry.dir d dcs ∈ scs ∧ startsWithSeason d = true ∧
            Entry.file f ∈ dcs ∧ p = rp ++ [s, d, f])) := by
  cases e with
  | file n => simp [showContribution]
  | dir s scs =>
    simp only [showContribution, mem_scanShowDir, Entry.dir.injEq]
    constructor
    · rintro (⟨f, hf, rfl⟩ | ⟨d, dcs, f, hd, hsd, hf, rfl⟩)
      · exact ⟨s, scs, ⟨rfl, rfl⟩, Or.inl ⟨f, hf, by simp⟩⟩
      · exact ⟨s, scs, ⟨rfl, rfl⟩, Or.inr ⟨d, dcs, f, hd, hsd, hf, by simp⟩⟩
    · rintro ⟨s', scs', ⟨rfl, rfl⟩, (⟨f, hf, rfl⟩ | ⟨d, dcs, f, hd, hsd, hf, rfl⟩)⟩
      · exact Or.inl ⟨f, hf, by simp⟩
      · exact Or.inr ⟨d, dcs, f, hd, hsd, hf, by simp⟩

theorem mem_scanTvRoot {rp : FsPath} {cs : List Entry} {p : FsPath} :
    p ∈ scanTvRoot rp cs ↔
      ∃ s scs, Entry.dir s scs ∈ cs ∧
        ((∃ f, Entry.file f ∈ scs ∧ p = rp ++ [s, f]) ∨
          (∃ d dcs f, Entry.dir d dcs ∈ scs ∧ startsWithSeason d = true ∧
            Entry.file f ∈ dcs ∧ p = rp ++ [s, d, f])) := by
  simp only [scanTvRoot, List.mem_flatMap, mem_showContribution]
  constructor
  · rintro ⟨e, he, s, scs, rfl, h⟩
    exact ⟨s, scs, he, h⟩
  · rintro ⟨s, scs, hs, h⟩
    exact ⟨Entry.dir s scs, hs, s, scs, rfl, h⟩

/-- Declarative description of a recorded TV episode: below some
configured root there is a show directory, and the episode is an immediate
file child of the show directory, or an immediate file child of a
season-prefixed immediate subdirectory of the show directory. -/
def TvEpisodeAt (fs : Entry) (roots : List FsPath) (p : FsPath) : Prop :=
  ∃ r ∈ roots, ∃ cs, childrenAt fs r = some cs ∧
    ∃ s scs, Entry.dir s scs ∈ cs ∧
      ((∃ f, Entry.file f ∈ scs ∧ p = r ++ [s, f]) ∨
        (∃ d dcs f, Entry.dir d dcs ∈ scs ∧ startsWithSeason d = true ∧
          Entry.file f ∈ dcs ∧ p = r ++ [s, d, f]))

/-- C1: a completed TV scan records exactly the immediate file children of
the show directories and of their season-prefixed immediate
subdirectories. -/
theorem scan_tv_directories_records_exactly (fs : Entry) (roots : List FsPath)
    (eps : List FsPath) (h : scan_tv_directories fs roots = .ok eps) (p : FsPath) :
    p ∈ eps ↔ TvEpisodeAt fs roots p := by
  induction roots generalizing eps with
  | nil =>
    simp only [scan_tv_directories, Except.ok.injEq] at h
    subst h
    simp [TvEpisodeAt]
  | cons r rs ih =>
    rw [scan_tv_directories] at h
    cases hf : fs.find r with
    | none => rw [hf] at h; cases h
    | some e =>
      rw [hf] at h
      cases e with
      | file n => cases h
      | dir n cs =>
        cases hrest : scan_tv_directories fs rs with
        | error e => rw [hrest] at h; cases h
        | ok rest =>
          rw [hrest] at h
          cases h
          have hchild : childrenAt fs r = some cs := by
            simp [childrenAt, hf]
          simp only [List.mem_append, mem_scanTvRoot, ih rest hrest, TvEpisodeAt,
            List.mem_cons]
          constructor
          · rintro (⟨s, scs, hs, hbody⟩ | ⟨r', hr', rest'⟩)
            · exact ⟨r, Or.inl rfl, cs, hchild, s, scs, hs, hbody⟩
            · exact ⟨r', Or.inr hr', rest'⟩
          · rintro ⟨r', hr' | hr', cs', hchild', body⟩
            · subst hr'
              rw [hchild'] at hchild
              cases hchild
              exact Or.inl body
            · exact Or.inr ⟨r', hr', cs', hchild', body⟩


theorem scan_tv_directories_records_exactly_witness :
    (scan_tv_directories fsScenario [["lib", "tv"]] =
        .ok [["lib", "tv", "ShowA", "ep1.mkv"], ["lib", "tv", "ShowA", "Season 2", "ep2.mkv"]]) ∧
      (["lib", "tv", "ShowA", "ep1.mkv"] ∈
          [["lib", "tv", "ShowA", "ep1.mkv"], ["lib", "tv", "ShowA", "Season 2", "ep2.mkv"]] ↔
        TvEpisodeAt fsScenario [["lib", "tv"]] ["lib", "tv", "ShowA", "ep1.mkv"]) :=
  ⟨by decide,
    scan_tv_directories_records_exactly fsScenario [["lib", "tv"]]
      [["lib", "tv", "ShowA", "ep1.mkv"], ["lib", "tv", "ShowA", "Season 2", "ep2.mkv"]]
      (by decide) ["lib", "tv", "ShowA", "ep1.mkv"]⟩

/-- Path.parent on an absolute component-list path: drop the last
component; the filesystem root is its own parent, as in pathlib. -/
def parentDir (p : FsPath) : FsPath := p.dropLast

namespace TVSearchScreen

/-- TVSearchScreen.on_mount line 952 (src/movie-wolp.py): the show list is
the sorted set of the parent-of-parent of every cached episode path.
Python sorts pathlib.Path values by their component tuples, which on the
component-list model is exactly the lexicographic order on
`List String`. -/
def derive_shows (episodes : List FsPath) : List FsPath :=
  List.insertionSort (· ≤ ·) (episodes.map (fun e => parentDir (parentDir e))).dedup

end TVSearchScreen

/-- C2: deriving the show set maps every episode to its parent-of-parent,
deduplicates, and sorts lexicographically by path; an episode directly
below root/show/ contributes the root itself, which differs from the show
directory. -/
theorem derive_shows_spec (episodes : List FsPath) :
    (∀ s, s ∈ TVSearchScreen.derive_shows episodes ↔
        ∃ e ∈ episodes, s = parentDir (parentDir e)) ∧
      (TVSearchScreen.derive_shows episodes).Sorted (· ≤ ·) ∧
      (TVSearchScreen.derive_shows episodes).Nodup ∧
      ∀ r sh f, parentDir (parentDir (r ++ [sh, f])) = r ∧ r ≠ r ++ [sh] := by
  refine ⟨fun s => ?_, ?_, ?_, fun r sh f => ⟨?_, ?_⟩⟩
  · rw [TVSearchScreen.derive_shows, List.mem_insertionSort, List.mem_dedup, List.mem_map]
    constructor
    · rintro ⟨e, he, rfl⟩; exact ⟨e, he, rfl⟩
    · rintro ⟨e, he, rfl⟩; exact ⟨e, he, rfl⟩
  · exact List.sorted_insertionSort _ _
  · exact ((List.perm_insertionSort _ _).nodup_iff).mpr (List.nodup_dedup _)
  · have h1 : parentDir (r ++ [sh, f]) = r ++ [sh] := by
      show (r ++ ([sh] ++ [f])).dropLast = r ++ [sh]
      rw [← List.append_assoc]
      exact List.dropLast_concat ..
    rw [h1]
    exact List.dropLast_concat ..
  · intro hc
    have := congrArg List.length hc
    simp at this

/-- Python whitespace, as stripped by str.strip with no argument. -/
def isPySpace (c : Char) : Bool :=
  c == ' ' || c == '\t' || c == '\n' || c == '\r' || c == '\u000B' || c == '\u000C'

/-- Python str.strip: remove leading and trailing whitespace. -/
def pyStrip (s : String) : String :=
  String.mk (((s.data.dropWhile isPySpace).reverse.dropWhile isPySpace).reverse)

/-- os.path.basename / pathlib name on a component-list path: the final
component (empty for the filesystem root). -/
def basename (p : FsPath) : String := p.getLastD ""

/-- The Python substring test needle in hay on strings. -/
def strContains (needle hay : String) : Bool :=
  decide (List.IsInfix needle.data hay.data)

theorem strContains_empty_left (s : String) : strContains "" s = true := by
  rw [strContains, decide_eq_true_iff]
  exact ⟨[], s.data, by simp⟩

theorem pyLower_empty : pyLower "" = "" := rfl

namespace MovieSearchScreen

/-- MovieSearchScreen.on_input_changed (src/movie-wolp.py lines 625-634):
strip and lowercase the query, then keep the cached movies whose
lowercased basename contains it, in cache order. -/
def on_input_changed (movies : List FsPath) (value : String) : List FsPath :=
  let text := pyLower (pyStrip value)
  movies.filter (fun movie => strContains text (pyLower (basename movie)))

end MovieSearchScreen

namespace TVSearchScreen

/-- The fields of the TVSearchScreen object that the engine logic reads
and writes (src/movie-wolp.py lines 947-958).  The navigation level is
the literal Python string "root", "show" or "season";
currentShow/currentSeason model self.current_show/self.current_season
with None as `none`. -/
structure ScreenState where
  episodes : List FsPath
  shows : List FsPath
  filtered : List FsPath
  searchValue : String
  level : String
  currentShow : Option FsPath
  currentSeason : Option FsPath
deriving DecidableEq

/-- TVSearchScreen.on_input_changed (src/movie-wolp.py lines 967-981):
strip and lowercase the query, keep the shows whose name contains it,
and reset navigation to the root level with both selections cleared. -/
def on_input_changed (st : ScreenState) (value : String) : ScreenState :=
  let text := pyLower (pyStrip value)
  { st with
    filtered := st.shows.filter (fun sh => strContains text (pyLower (basename sh))),
    searchValue := value,
    level := "root",
    currentShow := none,
    currentSeason := none }

end TVSearchScreen

/-- C4: both search filters keep exactly the candidates whose final path
component contains the stripped query case-insensitively, preserve the
input order (the result is a sublist of the input), and leave the whole
candidate list unchanged when the query strips to the empty string. -/
theorem search_filter_spec (value : String) (movies : List FsPath)
    (st : TVSearchScreen.ScreenState) :
    (MovieSearchScreen.on_input_changed movies value).Sublist movies ∧
      (∀ x, x ∈ MovieSearchScreen.on_input_changed movies value ↔
        x ∈ movies ∧ strContains (pyLower (pyStrip value)) (pyLower (basename x)) = true) ∧
      (pyStrip value = "" → MovieSearchScreen.on_input_changed movies value = movies) ∧
      ((TVSearchScreen.on_input_changed st value).filtered.Sublist st.shows ∧
        (TVSearchScreen.on_input_changed st value).level = "root") ∧
      (∀ x, x ∈ (TVSearchScreen.on_input_changed st value).filtered ↔
        x ∈ st.shows ∧ strContains (pyLower (pyStrip value)) (pyLower (basename x)) = true) ∧
      (pyStrip value = "" → (TVSearchScreen.on_input_changed st value).filtered = st.shows) := by
  refine ⟨List.filter_sublist _, fun x => ?_, fun hv => ?_,
    ⟨List.filter_sublist _, rfl⟩, fun x => ?_, fun hv => ?_⟩
  · simp [MovieSearchScreen.on_input_changed, List.mem_filter]
  · rw [MovieSearchScreen.on_input_changed]
    simp only [hv, pyLower_empty]
    exact List.filter_eq_self.mpr (fun a _ => strContains_empty_left _)
  · simp [TVSearchScreen.on_input_changed, List.mem_filter]
  · rw [TVSearchScreen.on_input_changed]
    simp only [hv, pyLower_empty]
    exact List.filter_eq_self.mpr (fun a _ => strContains_empty_left _)

/-- the movie list of the filtering example in section 8 of the spec -/
def moviesExample : List FsPath :=
  [["A", "Doghouse.mkv"], ["B", "cat.mkv"], ["C", "Bigdog.mp4"]]

theorem search_filter_spec_witness :
    (MovieSearchScreen.on_input_changed moviesExample "dog" =
        [["A", "Doghouse.mkv"], ["C", "Bigdog.mp4"]]) ∧
      (MovieSearchScreen.on_input_changed moviesExample "dog").Sublist moviesExample ∧
      (pyStrip "  " = "" ∧ MovieSearchScreen.on_input_changed moviesExample "  " = moviesExample) :=
  ⟨by decide, (search_filter_spec "dog" moviesExample
      ⟨[], [], [], "", "root", none, none⟩).1,
    by decide, (search_filter_spec "  " moviesExample
      ⟨[], [], [], "", "root", none, none⟩).2.2.1 (by decide)⟩

namespace TVSearchScreen

/-- Line 1226 of src/movie-wolp.py reads
self.shows = sorted(... for episodes in self.episodes) while the
comprehension expression mentions the unbound name episode, so evaluating
the comprehension raises NameError as soon as the iterable is non-empty;
only an empty episode list lets it produce the empty set. -/
def buggy_shows : List FsPath → Except PyError (List FsPath)
  | [] => .ok []
  | _ :: _ => .error .nameError

/-- The rescan branch of TVSearchScreen.on_button_pressed
(src/movie-wolp.py lines 1216-1239): rescan the TV library, reload the
episode cache, recompute the show list (line 1226, which raises NameError
on any non-empty cache), then clear the search text and reset navigation.
Returns the screen state as the handler leaves it together with the
exception it raised, if any. -/
def on_button_pressed_rescan (fs : Entry) (tvRoots : List FsPath)
    (st : ScreenState) : ScreenState × Option PyError :=
  match scan_tv_directories fs tvRoots with
  | .error e => (st, some e)
  | .ok eps =>
    let st1 := { st with episodes := eps }
    match buggy_shows st1.episodes with
    | .error e => (st1, some e)
    | .ok shows =>
      ({ st1 with
          shows := shows
          filtered := shows
          searchValue := ""
          level := "root"
          currentShow := none
          currentSeason := none }, none)

end TVSearchScreen

/-- a screen state browsing the season level of the scenario show -/
def stSeason : TVSearchScreen.ScreenState :=
  { episodes := [["lib", "tv", "ShowA", "ep1.mkv"],
      ["lib", "tv", "ShowA", "Season 2", "ep2.mkv"]],
    shows := [["lib", "tv"]],
    filtered := [["lib", "tv"]],
    searchValue := "",
    level := "season",
    currentShow := some ["lib", "tv", "ShowA"],
    currentSeason := some ["lib", "tv", "ShowA", "Season 2"] }

/-- C5: changing the search text does reset navigation to the root level
with both selections cleared, but a completed TV rescan over a non-empty
library raises NameError at line 1226 before the reset statements run,
leaving the previous navigation level and season selection in place. -/
theorem tv_rescan_reset_code_bug :
    (∀ st value, (TVSearchScreen.on_input_changed st value).level = "root" ∧
        (TVSearchScreen.on_input_changed st value).currentShow = none ∧
        (TVSearchScreen.on_input_changed st value).currentSeason = none) ∧
      (TVSearchScreen.on_button_pressed_rescan fsScenario [["lib", "tv"]] stSeason).2 =
          some .nameError ∧
      (TVSearchScreen.on_button_pressed_rescan fsScenario [["lib", "tv"]] stSeason).1.level =
          "season" ∧
      (TVSearchScreen.on_button_pressed_rescan fsScenario [["lib", "tv"]] stSeason).1.currentSeason
          = some ["lib", "tv", "ShowA", "Season 2"] := by
  exact ⟨fun st value => ⟨rfl, rfl, rfl⟩, by decide, by decide, by decide⟩

/-- Path.resolve in the model: paths are already canonical absolute
component lists and the model filesystem has no symbolic links, so
resolution is the identity map. -/
def resolvePath (p : FsPath) : FsPath := p

namespace TVSearchScreen

/-- TVSearchScreen.handle_list_item_double_click
(src/movie-wolp.py lines 1149-1207), given the activated entry path: at
the root level a directory becomes the selected show; at the show level
the parent of the selected show navigates up while any other directory
becomes the selected season; at the season level the parent of the
selected season navigates up, and an existing file is revealed via the
external file manager with the state unchanged.  Returns the updated
state, the revealed path, if any, and the exception raised, if any
(reading .parent on a None selection raises AttributeError). -/
def handle_list_item_double_click (fs : Entry) (st : ScreenState)
    (path : FsPath) : ScreenState × Option FsPath × Option PyError :=
  if st.level = "root" ∧ isDirAt fs path = true then
    ({ st with level := "show", currentShow := some path }, none, none)
  else if st.level = "show" ∧ isDirAt fs path = true then
    match st.currentShow with
    | none => (st, none, some .attributeError)
    | some sh =>
      if path = parentDir sh then
        ({ st with level := "root", currentShow := none }, none, none)
      else
        ({ st with level := "season", currentSeason := some path }, none, none)
  else if st.level = "season" then
    match st.currentSeason with
    | none => (st, none, some .attributeError)
    | some sn =>
      if path = parentDir sn then
        ({ st with level := "show", currentSeason := none }, none, none)
      else if isFileAt fs path = true ∧ existsAt fs path = true then
        (st, some (resolvePath path), none)
      else (st, none, none)
  else (st, none, none)

end TVSearchScreen

theorem existsAt_of_isFileAt {fs : Entry} {p : FsPath} (h : isFileAt fs p = true) :
    existsAt fs p = true := by
  rw [existsAt]
  rw [isFileAt] at h
  cases hf : fs.find p with
  | none => rw [hf] at h; simp at h
  | some e => rfl

/-- C6: the navigation round-trip: from the root level an activated
directory becomes the selected show; from the show level the parent of
the show returns to the root level with the selection cleared; from the
season level the parent of the season returns to the show level, and an
existing episode file leaves the state unchanged while signaling a reveal
of its resolved path. -/
theorem handle_double_click_round_trip (fs : Entry) (st : TVSearchScreen.ScreenState) :
    (∀ p, st.level = "root" → isDirAt fs p = true →
        TVSearchScreen.handle_list_item_double_click fs st p =
          ({ st with level := "show", currentShow := some p }, none, none)) ∧
      (∀ sh, st.level = "show" → st.currentShow = some sh →
          isDirAt fs (parentDir sh) = true →
        TVSearchScreen.handle_list_item_double_click fs st (parentDir sh) =
          ({ st with level := "root", currentShow := none }, none, none)) ∧
      (∀ sn, st.level = "season" → st.currentSeason = some sn →
        TVSearchScreen.handle_list_item_double_click fs st (parentDir sn) =
          ({ st with level := "show", currentSeason := none }, none, none)) ∧
      (∀ sn p, st.level = "season" → st.currentSeason = some sn → p ≠ parentDir sn →
          isFileAt fs p = true →
        TVSearchScreen.handle_list_item_double_click fs st p =
          (st, some (resolvePath p), none)) := by
  refine ⟨fun p h1 h2 => ?_, fun sh h1 h2 h3 => ?_, fun sn h1 h2 => ?_,
    fun sn p h1 h2 h3 h4 => ?_⟩
  · rw [TVSearchScreen.handle_list_item_double_click, if_pos ⟨h1, h2⟩]
  · rw [TVSearchScreen.handle_list_item_double_click, if_neg (by simp [h1]),
      if_pos ⟨h1, h3⟩, h2]
    simp
  · rw [TVSearchScreen.handle_list_item_double_click, if_neg (by simp [h1]),
      if_neg (by simp [h1]), if_pos h1, h2]
    simp
  · rw [TVSearchScreen.handle_list_item_double_click, if_neg (by simp [h1]),
      if_neg (by simp [h1]), if_pos h1, h2]
    simp only [Option.some.injEq]
    rw [if_neg h3, if_pos ⟨h4, existsAt_of_isFileAt h4⟩]

theorem handle_double_click_round_trip_witness :
    TVSearchScreen.handle_list_item_double_click fsScenario stSeason
        ["lib", "tv", "ShowA", "Season 2", "ep2.mkv"] =
      (stSeason, some ["lib", "tv", "ShowA", "Season 2", "ep2.mkv"], none) :=
  (handle_double_click_round_trip fsScenario stSeason).2.2.2
    ["lib", "tv", "ShowA", "Season 2"] ["lib", "tv", "ShowA", "Season 2", "ep2.mkv"]
    rfl rfl (by decide) (by decide)

theorem isDirAt_iff {fs : Entry} {p : FsPath} :
    isDirAt fs p = true ↔ ∃ n cs, fs.find p = some (.dir n cs) := by
  rw [isDirAt]
  cases hf : fs.find p with
  | none => simp
  | some e => cases e with
    | file n => simp
    | dir n cs => simp

theorem scan_tv_directories_cons (fs : Entry) (r : FsPath) (rs : List FsPath) :
    scan_tv_directories fs (r :: rs) =
      match fs.find r with
      | some (.dir _ cs) =>
        match scan_tv_directories fs rs with
        | .ok rest => .ok (scanTvRoot r cs ++ rest)
        | .error e => .error e
      | some (.file _) => .error .notADirectory
      | none => .error .fileNotFound := rfl

/-- a filesystem with one readable TV root named good -/
def fsGood : Entry := .dir "" [.dir "good" [.dir "ShowB" [.file "pilot.mkv"]]]

/-- C7 counterexample: a nonexistent TV root is not skipped silently: the
TV scan surfaces FileNotFoundError instead of contributing zero entries
and continuing over the remaining roots. -/
theorem scan_tv_missing_root_counterexample :
    scan_tv_directories fsGood [["missing"], ["good"]] = .error .fileNotFound ∧
      scan_tv_directories fsGood [["good"]] = .ok [["good", "ShowB", "pilot.mkv"]] ∧
      scan_tv_directories fsGood [["missing"], ["good"]] ≠
        scan_tv_directories fsGood [["good"]] := by
  exact ⟨by decide, by decide, by decide⟩

/-- C7 amended: the movie scan silently skips a nonexistent root, which
contributes zero entries while the scan continues over the remaining
roots unchanged; the TV scan instead raises FileNotFoundError at the
first nonexistent root and aborts. -/
theorem scan_missing_root_amended :
    (∀ (fs : Entry) (bad : FsPath) (pre post : List FsPath), fs.find bad = none →
        scan_directories fs (pre ++ bad :: post) = scan_directories fs (pre ++ post)) ∧
      ∀ (fs : Entry) (bad : FsPath) (pre post : List FsPath), fs.find bad = none →
        (∀ q ∈ pre, isDirAt fs q = true) →
        scan_tv_directories fs (pre ++ bad :: post) = .error .fileNotFound := by
  constructor
  · intro fs bad pre post hbad
    simp [scan_directories, rootWalk, hbad]
  · intro fs bad pre post hbad hpre
    induction pre with
    | nil =>
      rw [List.nil_append, scan_tv_directories_cons, hbad]
    | cons q qs ih =>
      obtain ⟨n, cs, hfq⟩ := isDirAt_iff.mp (hpre q (List.mem_cons_self ..))
      have ih2 := ih (fun r hr => hpre r (List.mem_cons_of_mem _ hr))
      rw [List.cons_append, scan_tv_directories_cons, hfq, ih2]

theorem scan_missing_root_amended_witness :
    scan_directories fsGood [["missing"], ["good"]] = scan_directories fsGood [["good"]] ∧
      scan_tv_directories fsGood [["good"], ["missing"]] = .error .fileNotFound :=
  ⟨scan_missing_root_amended.1 fsGood ["missing"] [] [["good"]] (by decide),
    scan_missing_root_amended.2 fsGood ["missing"] [["good"]] [] (by decide)
      (by decide)⟩

/-- Config file name (src/movie-wolp.py line 40). -/
def CONFIG_FILE : String := "config.json"

/-- Movie cache file name (src/movie-wolp.py line 41). -/
def MOVIE_CACHE : String := "movies.json"

/-- TV cache file name (src/movie-wolp.py line 42). -/
def TV_CACHE : String := "tv-shows.json"

/-- The three persisted files, each present with textual contents or
absent. -/
structure PersistedFiles where
  config : Option String
  movieCache : Option String
  tvCache : Option String
deriving DecidableEq

/-- The screen the startup handler pushes. -/
inductive StartScreen where
  | mainMenu
  | configurationScreen
deriving DecidableEq

namespace MovieWolpApp

/-- MovieWolp.on_mount (src/movie-wolp.py lines 80-104): when the config
file and both cache files all exist, open and load all three and push
the main menu; otherwise push the configuration screen without opening
any of the files.  The second component records which files the handler
opened, in order. -/
def on_mount (files : PersistedFiles) : StartScreen × List String :=
  if files.config.isSome && files.movieCache.isSome && files.tvCache.isSome then
    (.mainMenu, [CONFIG_FILE, MOVIE_CACHE, TV_CACHE])
  else
    (.configurationScreen, [])

end MovieWolpApp

/-- C9: startup enters the main-menu flow exactly when all three
persisted files are present; if any one is missing it enters the
initial-setup flow without reading any of the files. -/
theorem on_mount_triad (files : PersistedFiles) :
    ((files.config.isSome && files.movieCache.isSome && files.tvCache.isSome) = true →
        MovieWolpApp.on_mount files = (.mainMenu, [CONFIG_FILE, MOVIE_CACHE, TV_CACHE])) ∧
      ((files.config = none ∨ files.movieCache = none ∨ files.tvCache = none) →
        MovieWolpApp.on_mount files = (.configurationScreen, [])) := by
  by_cases h : (files.config.isSome && files.movieCache.isSome && files.tvCache.isSome) = true
  · refine ⟨fun _ => ?_, fun hm => ?_⟩
    · rw [MovieWolpApp.on_mount, if_pos h]
    · exfalso
      rcases hm with hm | hm | hm <;> rw [hm] at h <;> simp at h
  · refine ⟨fun hc => absurd hc h, fun _ => ?_⟩
    rw [MovieWolpApp.on_mount, if_neg h]

theorem on_mount_triad_witness :
    MovieWolpApp.on_mount ⟨some "cfg", some "movies", none⟩ = (.configurationScreen, []) ∧
      MovieWolpApp.on_mount ⟨some "cfg", some "movies", some "tv"⟩ =
        (.mainMenu, [CONFIG_FILE, MOVIE_CACHE, TV_CACHE]) :=
  ⟨(on_mount_triad ⟨some "cfg", some "movies", none⟩).2 (Or.inr (Or.inr rfl)),
    (on_mount_triad ⟨some "cfg", some "movies", some "tv"⟩).1 (by decide)⟩

/-- The on-disk persisted state as the rescan operations see it: the
contents of the three files (the caches as the path lists their JSON
encodes). -/
structure AppDisk where
  configFile : Option String
  movieCacheFile : Option (List FsPath)
  tvCacheFile : Option (List FsPath)
deriving DecidableEq

namespace MovieWolpApp

/-- MovieWolp.scan_movie_directories (src/movie-wolp.py lines 118-125):
scan the configured movie roots and write the result to the movie cache
file; no other file is opened. -/
def scan_movie_directories (fs : Entry) (movieRoots : List FsPath)
    (disk : AppDisk) : AppDisk :=
  { disk with movieCacheFile := some (scan_directories fs movieRoots) }

/-- MovieWolp.scan_tv_directories including its final save
(src/movie-wolp.py lines 130-159): a successful scan writes the episode
list to the TV cache file; when the scan raises, the exception propagates
before the cache file is opened and the disk is untouched. -/
def scan_tv_directories_save (fs : Entry) (tvRoots : List FsPath)
    (disk : AppDisk) : AppDisk × Option PyError :=
  match scan_tv_directories fs tvRoots with
  | .ok eps => ({ disk with tvCacheFile := some eps }, none)
  | .error e => (disk, some e)

end MovieWolpApp

/-- C10: a movie rescan writes only the movie cache file and a TV rescan
writes only the TV cache file; in each case the other cache file and the
config file keep their previous contents. -/
theorem rescan_frame (fs : Entry) (movieRoots tvRoots : List FsPath) (disk : AppDisk) :
    ((MovieWolpApp.scan_movie_directories fs movieRoots disk).tvCacheFile =
        disk.tvCacheFile ∧
      (MovieWolpApp.scan_movie_directories fs movieRoots disk).configFile =
        disk.configFile) ∧
      ((MovieWolpApp.scan_tv_directories_save fs tvRoots disk).1.movieCacheFile =
          disk.movieCacheFile ∧
        (MovieWolpApp.scan_tv_directories_save fs tvRoots disk).1.configFile =
          disk.configFile) := by
  refine ⟨⟨rfl, rfl⟩, ?_⟩
  cases h : scan_tv_directories fs tvRoots <;>
    simp [MovieWolpApp.scan_tv_directories_save, h]

theorem rescan_frame_witness :
    (MovieWolpApp.scan_movie_directories fsGood [["good"]]
        ⟨some "cfg", none, some [["old"]]⟩).tvCacheFile = some [["old"]] ∧
      (MovieWolpApp.scan_tv_directories_save fsGood [["good"]]
        ⟨some "cfg", some [["old"]], none⟩).1.movieCacheFile = some [["old"]] :=
  ⟨(rescan_frame fsGood [["good"]] [["good"]] ⟨some "cfg", none, some [["old"]]⟩).1.1,
    (rescan_frame fsGood [["good"]] [["good"]] ⟨some "cfg", some [["old"]], none⟩).2.1⟩

/-- Opening a file with open(path, "w") truncates it to empty
immediately, before anything has been written. -/
def pyOpenTruncate (_old : Option String) : Option String := some ""

/-- One chunk written to an open file: appended to the current
contents. -/
def pyWriteChunk (disk : Option String) (s : String) : Option String :=
  match disk with
  | some t => some (t ++ s)
  | none => none

/-- The text chunks json.dump streams for a flat list of path strings: an
opening bracket, one chunk per entry, a closing bracket.  The exact
separators and indentation json.dump emits are immaterial to the claims
and folded into the entry chunks. -/
def jsonChunks (paths : List FsPath) : List String :=
  ["["] ++ paths.map (fun p => "\"/" ++ String.intercalate "/" p ++ "\"") ++ ["]"]

/-- The concatenation of a chunk list, i.e. the complete serialized
cache. -/
def joinChunks : List String → String
  | [] => ""
  | s :: rest => s ++ joinChunks rest

/-- Saving a cache file (src/movie-wolp.py lines 124-125 and 158-159):
open(path, "w") truncates the destination in place, then json.dump
streams the chunks onto it.  `failAfter = some k` models a write failure
(permissions revoked, disk full) after `k` chunks reached the disk;
`none` models a successful save. -/
def saveCacheFile (paths : List FsPath) (failAfter : Option Nat)
    (disk : Option String) : Option String :=
  match failAfter with
  | none => (jsonChunks paths).foldl pyWriteChunk (pyOpenTruncate disk)
  | some k => ((jsonChunks paths).take k).foldl pyWriteChunk (pyOpenTruncate disk)

theorem foldl_pyWriteChunk (l : List String) :
    ∀ t, l.foldl pyWriteChunk (some t) = some (t ++ joinChunks l) := by
  induction l with
  | nil => intro t; simp [joinChunks]
  | cons s rest ih =>
    intro t
    rw [List.foldl_cons]
    show List.foldl pyWriteChunk (some (t ++ s)) rest = _
    rw [ih (t ++ s), joinChunks, String.append_assoc]

theorem joinChunks_take_drop (l : List String) :
    ∀ k, joinChunks (l.take k) ++ joinChunks (l.drop k) = joinChunks l := by
  induction l with
  | nil =>
    intro k
    rw [List.take_nil, List.drop_nil]
    exact String.append_empty _
  | cons s rest ih =>
    intro k
    cases k with
    | zero =>
      rw [List.take_zero, List.drop_zero]
      exact String.empty_append _
    | succ k =>
      rw [List.take_succ_cons, List.drop_succ_cons]
      show (s ++ joinChunks (rest.take k)) ++ joinChunks (rest.drop k) = s ++ joinChunks rest
      rw [String.append_assoc, ih k]

/-- C8 counterexample: a write failure immediately after the truncating
open leaves an empty cache file on disk, not the previously persisted
contents, so the save is not write-then-swap. -/
theorem save_cache_counterexample :
    saveCacheFile [["lib", "movies", "New.mkv"]] (some 0)
        (some "[\"/lib/movies/Old.mkv\"]") = some "" ∧
      saveCacheFile [["lib", "movies", "New.mkv"]] (some 0)
          (some "[\"/lib/movies/Old.mkv\"]") ≠
        some "[\"/lib/movies/Old.mkv\"]" := by
  exact ⟨rfl, by decide⟩

/-- C8 amended: the save truncates the destination in place and streams
the new serialization; a failure partway leaves some prefix of the new
serialization on disk (the previous contents are destroyed, and a
half-written cache can remain), while only a fully successful save leaves
the complete new serialization. -/
theorem save_cache_write_in_place (paths : List FsPath) (k : Nat) (disk : Option String) :
    (∃ s t, saveCacheFile paths (some k) disk = some s ∧
        s ++ t = joinChunks (jsonChunks paths)) ∧
      saveCacheFile paths none disk = some (joinChunks (jsonChunks paths)) := by
  constructor
  · refine ⟨joinChunks ((jsonChunks paths).take k),
      joinChunks ((jsonChunks paths).drop k), ?_, joinChunks_take_drop _ k⟩
    show ((jsonChunks paths).take k).foldl pyWriteChunk (some "") = _
    rw [foldl_pyWriteChunk, String.empty_append]
  · show (jsonChunks paths).foldl pyWriteChunk (some "") = _
    rw [foldl_pyWriteChunk, String.empty_append]

theorem save_cache_write_in_place_witness :
    saveCacheFile [["lib", "movies", "New.mkv"]] none (some "[\"/lib/movies/Old.mkv\"]") =
      some (joinChunks (jsonChunks [["lib", "movies", "New.mkv"]])) :=
  (save_cache_write_in_place [["lib", "movies", "New.mkv"]] 0
    (some "[\"/lib/movies/Old.mkv\"]")).2

/-- Structural induction for the nested `Entry` inductive, via strong
induction on sizes. -/
theorem Entry.myInduction (P : Entry → Prop) (hfile : ∀ n, P (.file n))
    (hdir : ∀ n cs, (∀ c ∈ cs, P c) → P (.dir n cs)) : ∀ e, P e := by
  have key : ∀ k (e : Entry), sizeOf e ≤ k → P e := by
    intro k
    induction k with
    | zero =>
      intro e h
      exfalso
      cases e with
      | file n => simp only [Entry.file.sizeOf_spec] at h; omega
      | dir n cs => simp only [Entry.dir.sizeOf_spec] at h; omega
    | succ k ih =>
      intro e h
      cases e with
      | file n => exact hfile n
      | dir n cs =>
        refine hdir n cs (fun c hc => ih c ?_)
        have h1 := List.sizeOf_lt_of_mem hc
        simp only [Entry.dir.sizeOf_spec] at h
        omega
  exact fun e => key (sizeOf e) e le_rfl

theorem Entry.wfAll_iff (cs : List Entry) :
    Entry.wfAll cs = true ↔ ∀ c ∈ cs, c.wf = true := by
  induction cs with
  | nil => simp [Entry.wfAll]
  | cons c rest ih => simp [Entry.wfAll, Bool.and_eq_true, ih, List.forall_mem_cons]

theorem Entry.wf_dir_iff {n : String} {cs : List Entry} :
    (Entry.dir n cs).wf = true ↔ (cs.map Entry.name).Nodup ∧ ∀ c ∈ cs, c.wf = true := by
  rw [Entry.wf, Bool.and_eq_true, decide_eq_true_iff, Entry.wfAll_iff]

theorem Entry.findIn_eq_some {cs : List Entry} {n : String} {rest : FsPath} {x : Entry}
    (h : Entry.findIn cs n rest = some x) :
    ∃ c ∈ cs, c.name = n ∧ c.find rest = some x := by
  induction cs with
  | nil => cases h
  | cons c rest2 ih =>
    rw [Entry.findIn] at h
    by_cases hn : c.name = n
    · rw [if_pos hn] at h
      exact ⟨c, List.mem_cons_self .., hn, h⟩
    · rw [if_neg hn] at h
      obtain ⟨c2, hc2, hn2, hf2⟩ := ih h
      exact ⟨c2, List.mem_cons_of_mem _ hc2, hn2, hf2⟩

theorem Entry.findIn_of_mem {cs : List Entry} {n : String} {rest : FsPath} {c x : Entry}
    (hnodup : (cs.map Entry.name).Nodup) (hc : c ∈ cs) (hn : c.name = n)
    (hf : c.find rest = some x) : Entry.findIn cs n rest = some x := by
  induction cs with
  | nil => cases hc
  | cons c0 rest2 ih =>
    rw [List.map_cons, List.nodup_cons] at hnodup
    rw [Entry.findIn]
    rcases List.mem_cons.mp hc with rfl | hmem
    · rw [if_pos hn]
      exact hf
    · by_cases h0 : c0.name = n
      · exact absurd (by rw [h0, ← hn]; exact List.mem_map_of_mem Entry.name hmem)
          hnodup.1
      · rw [if_neg h0]
        exact ih hnodup.2 hmem

theorem Entry.find_append (e : Entry) (p q : FsPath) :
    e.find (p ++ q) = (e.find p).bind (fun x => x.find q) := by
  induction p generalizing e with
  | nil => simp [Entry.find]
  | cons n rest ih =>
    cases e with
    | file m => simp [Entry.find]
    | dir m cs =>
      rw [List.cons_append, Entry.find, Entry.find]
      induction cs with
      | nil => simp [Entry.findIn]
      | cons c cs2 ihc =>
        rw [Entry.findIn, Entry.findIn]
        by_cases hn : c.name = n
        · rw [if_pos hn, if_pos hn, ih c]
        · rw [if_neg hn, if_neg hn, ihc]

theorem Entry.wf_find {fs : Entry} {p : FsPath} {x : Entry} (hwf : fs.wf = true)
    (h : fs.find p = some x) : x.wf = true := by
  induction p generalizing fs with
  | nil =>
    rw [Entry.find] at h
    cases h
    exact hwf
  | cons n rest ih =>
    cases fs with
    | file m => rw [Entry.find] at h; cases h
    | dir m cs =>
      rw [Entry.find] at h
      obtain ⟨c, hc, -, hf⟩ := Entry.findIn_eq_some h
      exact ih ((Entry.wf_dir_iff.mp hwf).2 c hc) hf

theorem Entry.walkAll_eq_flatMap (cs : List Entry) (p : FsPath) :
    Entry.walkAll cs p = cs.flatMap (fun c => c.walk (p ++ [c.name])) := by
  induction cs with
  | nil => rw [Entry.walkAll]; rfl
  | cons c cs2 ih => rw [Entry.walkAll, ih]; rfl

theorem Entry.mem_walk_iff (e : Entry) : e.wf = true → ∀ p q : FsPath,
    (q ∈ e.walk p ↔ ∃ s, s ≠ [] ∧ q = p ++ s ∧
      ∃ fn, e.find s = some (Entry.file fn)) := by
  induction e using Entry.myInduction with
  | hfile n =>
    intro _ p q
    rw [Entry.walk]
    simp only [List.not_mem_nil, false_iff]
    rintro ⟨s, hs, rfl, fn, hfind⟩
    cases s with
    | nil => exact hs rfl
    | cons a as => rw [Entry.find] at hfind; cases hfind
  | hdir n cs ihcs =>
    intro hwf p q
    obtain ⟨hnodup, hAll⟩ := Entry.wf_dir_iff.mp hwf
    rw [Entry.walk]
    simp only [List.mem_append, List.mem_filterMap, fileChild_eq_some,
      Entry.walkAll_eq_flatMap, List.mem_flatMap]
    constructor
    · rintro (⟨c, hc, fn, rfl, rfl⟩ | ⟨c, hc, hq⟩)
      · refine ⟨[fn], by simp, rfl, fn, ?_⟩
        rw [Entry.find]
        exact Entry.findIn_of_mem hnodup hc rfl rfl
      · rcases (ihcs c hc (hAll c hc) (p ++ [c.name]) q).mp hq with ⟨s2, hs2, rfl, fn, hfind⟩
        refine ⟨c.name :: s2, by simp, by simp, fn, ?_⟩
        rw [Entry.find]
        exact Entry.findIn_of_mem hnodup hc rfl hfind
    · rintro ⟨s, hs, rfl, fn, hfind⟩
      cases s with
      | nil => exact absurd rfl hs
      | cons a as =>
        rw [Entry.find] at hfind
        obtain ⟨c, hc, hname, hf⟩ := Entry.findIn_eq_some hfind
        cases as with
        | nil =>
          rw [Entry.find] at hf
          cases hf
          have ha : a = fn := hname.symm
          exact Or.inl ⟨Entry.file fn, hc, fn, rfl, by rw [ha]⟩
        | cons b bs =>
          cases hcc : c with
          | file m => rw [hcc, Entry.find] at hf; cases hf
          | dir m ccs =>
            refine Or.inr ⟨c, hc, ?_⟩
            refine (ihcs c hc (hAll c hc) (p ++ [c.name]) _).mpr
              ⟨b :: bs, by simp, ?_, fn, hf⟩
            rw [hname, List.append_cons]

theorem Entry.walk_extends (e : Entry) : ∀ p q, q ∈ e.walk p → ∃ s, s ≠ [] ∧ q = p ++ s := by
  induction e using Entry.myInduction with
  | hfile n =>
    intro p q h
    rw [Entry.walk] at h
    cases h
  | hdir n cs ihcs =>
    intro p q h
    rw [Entry.walk, List.mem_append] at h
    rcases h with h | h
    · rw [List.mem_filterMap] at h
      obtain ⟨c, hc, hfc⟩ := h
      rw [fileChild_eq_some] at hfc
      obtain ⟨fn, -, rfl⟩ := hfc
      exact ⟨[fn], by simp, rfl⟩
    · rw [Entry.walkAll_eq_flatMap, List.mem_flatMap] at h
      obtain ⟨c, hc, hq⟩ := h
      obtain ⟨s, -, rfl⟩ := ihcs c hc _ _ hq
      exact ⟨c.name :: s, by simp, by simp⟩

theorem Entry.walk_nodup (e : Entry) : e.wf = true → ∀ p, (e.walk p).Nodup := by
  induction e using Entry.myInduction with
  | hfile n =>
    intro _ p
    rw [Entry.walk]
    exact List.nodup_nil
  | hdir n cs ihcs =>
    intro hwf p
    obtain ⟨hnodup, hAll⟩ := Entry.wf_dir_iff.mp hwf
    rw [Entry.walk]
    refine List.Nodup.append ?_ ?_ ?_
    · refine List.Nodup.filterMap ?_ hnodup.of_map
      intro a a2 b hba hba2
      rw [Option.mem_def, fileChild_eq_some] at hba hba2
      obtain ⟨n1, rfl, rfl⟩ := hba
      obtain ⟨n2, rfl, heq⟩ := hba2
      have : n1 = n2 := by
        have h2 := List.append_cancel_left heq
        injection h2
      rw [this]
    · rw [Entry.walkAll_eq_flatMap, List.nodup_flatMap]
      refine ⟨fun c hc => ihcs c hc (hAll c hc) _, ?_⟩
      have hp : cs.Pairwise (fun a b => a.name ≠ b.name) := List.pairwise_map.mp hnodup
      refine hp.imp ?_
      intro a b hab q hqa hqb
      obtain ⟨s, -, hs⟩ := Entry.walk_extends a (p ++ [a.name]) q hqa
      obtain ⟨t, -, ht⟩ := Entry.walk_extends b (p ++ [b.name]) q hqb
      have hcomb : (p ++ [a.name]) ++ s = (p ++ [b.name]) ++ t := by rw [← hs, ← ht]
      simp [List.append_assoc] at hcomb
      exact hab hcomb.1
    · intro q hq1 hq2
      rw [List.mem_filterMap] at hq1
      obtain ⟨c, hc, hfc⟩ := hq1
      rw [fileChild_eq_some] at hfc
      obtain ⟨fn, -, rfl⟩ := hfc
      rw [Entry.walkAll_eq_flatMap, List.mem_flatMap] at hq2
      obtain ⟨c2, hc2, hq2⟩ := hq2
      obtain ⟨s, hsne, heq⟩ := Entry.walk_extends c2 _ _ hq2
      have hlen := congrArg List.length heq
      simp [List.length_append] at hlen
      exact hsne hlen

theorem isFileAt_iff {fs : Entry} {p : FsPath} :
    isFileAt fs p = true ↔ ∃ fn, fs.find p = some (Entry.file fn) := by
  rw [isFileAt]
  cases hf : fs.find p with
  | none => simp
  | some e => cases e with
    | file n => simp
    | dir n cs => simp

/-- q denotes a regular file lying strictly below the path r. -/
def FileBeneath (fs : Entry) (r q : FsPath) : Prop :=
  (∃ s, s ≠ [] ∧ q = r ++ s) ∧ isFileAt fs q = true

theorem mem_rootWalk {fs : Entry} (hwf : fs.wf = true) {r q : FsPath} :
    q ∈ rootWalk fs r ↔ FileBeneath fs r q := by
  rw [rootWalk, FileBeneath]
  cases hf : fs.find r with
  | none =>
    simp only [List.not_mem_nil, false_iff, not_and]
    rintro ⟨s, hs, rfl⟩
    rw [isFileAt_iff]
    rintro ⟨fn, hfn⟩
    rw [Entry.find_append, hf] at hfn
    simp at hfn
  | some e =>
    rw [Entry.mem_walk_iff e (Entry.wf_find hwf hf) r q]
    constructor
    · rintro ⟨s, hs, rfl, fn, hfind⟩
      refine ⟨⟨s, hs, rfl⟩, ?_⟩
      rw [isFileAt_iff, Entry.find_append, hf]
      exact ⟨fn, hfind⟩
    · rintro ⟨⟨s, hs, rfl⟩, hfile⟩
      rw [isFileAt_iff, Entry.find_append, hf] at hfile
      obtain ⟨fn, hfn⟩ := hfile
      exact ⟨s, hs, rfl, fn, hfn⟩

/-- No configured root is equal to or nested beneath another configured
root. -/
def NoNestedRoots (roots : List FsPath) : Prop :=
  roots.Pairwise (fun r1 r2 => ¬(r1 <+: r2) ∧ ¬(r2 <+: r1))

instance (roots : List FsPath) : Decidable (NoNestedRoots roots) := by
  unfold NoNestedRoots
  infer_instance

theorem count_eq_one_of_nodup_mem {l : List FsPath} {q : FsPath} (hnd : l.Nodup)
    (hq : q ∈ l) : List.count q l = 1 := by
  induction l with
  | nil => cases hq
  | cons a l ih =>
    rw [List.nodup_cons] at hnd
    rcases List.mem_cons.mp hq with rfl | hmem
    · rw [List.count_cons_self, List.count_eq_zero.mpr hnd.1]
    · have hne : q ≠ a := fun hc => hnd.1 (hc ▸ hmem)
      rw [List.count_cons_of_ne hne, ih hnd.2 hmem]

/-- the filesystem of the C3 counterexample: one file /a/b/f.mkv with
both /a and its subdirectory /a/b configured as movie roots -/
def fsNested : Entry := .dir "" [.dir "a" [.dir "b" [.file "f.mkv"]]]

/-- C3 counterexample: with one movie root nested beneath another, the
file beneath both is recorded once per root, so it appears twice in the
movie cache, not exactly once. -/
theorem scan_directories_nested_counterexample :
    List.count ["a", "b", "f.mkv"] (scan_directories fsNested [["a"], ["a", "b"]]) = 2 ∧
      List.count ["a", "b", "f.mkv"] (scan_directories fsNested [["a"], ["a", "b"]]) ≠ 1 := by
  exact ⟨by decide, by decide⟩

/-- C3 amended: on a well-formed filesystem the movie scan records
exactly the regular files lying at any depth beneath a configured root
(files outside every root never appear), and when no configured root is
equal to or nested beneath another each such file appears exactly
once. -/
theorem scan_directories_spec (fs : Entry) (roots : List FsPath)
    (hwf : fs.wf = true) (hroots : NoNestedRoots roots) :
    (∀ q, q ∈ scan_directories fs roots ↔ ∃ r ∈ roots, FileBeneath fs r q) ∧
      (scan_directories fs roots).Nodup ∧
      ∀ q r, r ∈ roots → FileBeneath fs r q →
        List.count q (scan_directories fs roots) = 1 := by
  have hmem : ∀ q, q ∈ scan_directories fs roots ↔ ∃ r ∈ roots, FileBeneath fs r q := by
    intro q
    rw [scan_directories, List.mem_flatMap]
    constructor
    · rintro ⟨r, hr, hq⟩
      exact ⟨r, hr, (mem_rootWalk hwf).mp hq⟩
    · rintro ⟨r, hr, hq⟩
      exact ⟨r, hr, (mem_rootWalk hwf).mpr hq⟩
  have hnd : (scan_directories fs roots).Nodup := by
    rw [scan_directories, List.nodup_flatMap]
    constructor
    · intro r hr
      rw [rootWalk]
      cases hf : fs.find r with
      | none => exact List.nodup_nil
      | some e => exact Entry.walk_nodup e (Entry.wf_find hwf hf) r
    · refine hroots.imp ?_
      intro r1 r2 hne q hq1 hq2
      obtain ⟨⟨s1, hs1, rfl⟩, -⟩ := (mem_rootWalk hwf).mp hq1
      obtain ⟨⟨s2, hs2, heq⟩, -⟩ := (mem_rootWalk hwf).mp hq2
      rcases List.prefix_or_prefix_of_prefix (⟨s1, rfl⟩ : r1 <+: r1 ++ s1)
          (⟨s2, heq.symm⟩ : r2 <+: r1 ++ s1) with h | h
      · exact hne.1 h
      · exact hne.2 h
  exact ⟨hmem, hnd, fun q r hr hb =>
    count_eq_one_of_nodup_mem hnd ((hmem q).mpr ⟨r, hr, hb⟩)⟩

theorem scan_directories_spec_witness :
    (["lib", "tv", "ShowA", "ep1.mkv"] ∈ scan_directories fsScenario [["lib", "tv"]] ↔
        ∃ r ∈ [["lib", "tv"]], FileBeneath fsScenario r ["lib", "tv", "ShowA", "ep1.mkv"]) ∧
      (scan_directories fsScenario [["lib", "tv"]]).Nodup :=
  ⟨(scan_directories_spec fsScenario [["lib", "tv"]] (by decide) (by decide)).1
      ["lib", "tv", "ShowA", "ep1.mkv"],
    (scan_directories_spec fsScenario [["lib", "tv"]] (by decide) (by decide)).2.1⟩

theorem derive_shows_spec_witness :
    (["lib", "tv"] ∈ TVSearchScreen.derive_shows
        [["lib", "tv", "ShowA", "ep1.mkv"], ["lib", "tv", "ShowA", "Season 2", "ep2.mkv"]] ↔
      ∃ e ∈ [["lib", "tv", "ShowA", "ep1.mkv"], ["lib", "tv", "ShowA", "Season 2", "ep2.mkv"]],
        ["lib", "tv"] = parentDir (parentDir e)) ∧
      (TVSearchScreen.derive_shows
        [["lib", "tv", "ShowA", "ep1.mkv"],
          ["lib", "tv", "ShowA", "Season 2", "ep2.mkv"]]).Nodup :=
  ⟨(derive_shows_spec
      [["lib", "tv", "ShowA", "ep1.mkv"], ["lib", "tv", "ShowA", "Season 2", "ep2.mkv"]]).1
      ["lib", "tv"],
    (derive_shows_spec
      [["lib", "tv", "ShowA", "ep1.mkv"], ["lib", "tv", "ShowA", "Season 2", "ep2.mkv"]]).2.2.1⟩

end MovieWolp
